import Mathlib

/-!
Verification development for the `genum` code generator.

The Go sources are shallowly embedded: each Go function of the directive
parser (`internal/directive.go`), the constant extractor and the file
aggregator (`internal/parser.go`) becomes an executable Lean definition over
explicit data. Go strings are `String`, Go slices are `List`, Go maps are
association lists whose insertion overwrites the existing key, and fallible
functions return `Except String`. ASCII inputs are assumed where the Go
standard library consults Unicode classes (`unicode.IsSpace`,
`unicode.IsUpper`).
-/

set_option autoImplicit false

namespace Genum

/-! ## Go `strings` package primitives (the subset the tool uses) -/

/-- The characters `unicode.IsSpace` accepts within ASCII: space, tab,
newline, vertical tab, form feed, carriage return. The repository only ever
feeds ASCII comments, so this is the class `strings.TrimSpace` and
`strings.Fields` cut at. -/
def isGoSpace (c : Char) : Bool :=
  c == ' ' || c == '\t' || c == '\n' || c == Char.ofNat 11 || c == Char.ofNat 12 || c == '\r'

/-- `strings.TrimSpace`: drop leading and trailing whitespace. -/
def goTrimSpace (s : String) : String :=
  ⟨((s.data.dropWhile isGoSpace).reverse.dropWhile isGoSpace).reverse⟩

/-- `strings.Trim(s, cutset)`: drop ALL leading and trailing characters that
are members of the cutset (the cutset is given as a list of characters). -/
def goTrim (s : String) (cutset : List Char) : String :=
  ⟨((s.data.dropWhile cutset.contains).reverse.dropWhile cutset.contains).reverse⟩

/-- `strings.HasPrefix(s, pre)`. -/
def goHasPrefix (s pre : String) : Bool :=
  pre.data.isPrefixOf s.data

/-- `strings.TrimPrefix(s, pre)`: drop `pre` when it leads `s`, else `s`. -/
def goTrimPrefix (s pre : String) : String :=
  if goHasPrefix s pre then ⟨s.data.drop pre.data.length⟩ else s

/-- The accumulator pass behind `strings.Fields`: split at whitespace runs,
empty words dropped. `acc` holds the current word reversed. -/
def fieldsAux : List Char → List Char → List String
  | [], acc => if acc.isEmpty then [] else [⟨acc.reverse⟩]
  | c :: cs, acc =>
    if isGoSpace c then
      if acc.isEmpty then fieldsAux cs [] else ⟨acc.reverse⟩ :: fieldsAux cs []
    else fieldsAux cs (c :: acc)

/-- `strings.Fields(s)`. -/
def goFields (s : String) : List String :=
  fieldsAux s.data []

/-- `strings.Cut(s, "=")` on character lists: split at the first `=`;
`none` models `found == false`. -/
def goCutList : List Char → Option (List Char × List Char)
  | [] => none
  | c :: cs =>
    if c = '=' then some ([], cs)
    else
      match goCutList cs with
      | none => none
      | some (a, b) => some (c :: a, b)

/-- `strings.Cut(s, "=")`: `some (before, after)` when `s` contains `=`. -/
def goCut (s : String) : Option (String × String) :=
  (goCutList s.data).map (fun p => (⟨p.1⟩, ⟨p.2⟩))

/-- `strings.Replace(s, old, new, 1)` on character lists: replace the first
occurrence of `old` (leftmost starting position) by `nw`. -/
def goReplaceOnceList (old nw : List Char) : List Char → List Char
  | [] => if old.isEmpty then nw else []
  | c :: cs =>
    if old.isPrefixOf (c :: cs) then nw ++ (c :: cs).drop old.length
    else c :: goReplaceOnceList old nw cs

/-- `strings.Replace(s, old, new, 1)`. -/
def goReplaceOnce (s old nw : String) : String :=
  ⟨goReplaceOnceList old.data nw.data s.data⟩

/-! ## `internal/directive.go` -/

/-- `genumPrefix`: the marker every directive comment must start with. -/
def genumMarker : String := "//go:generate genum "

/-- The `CaseHandling` constants; `CaseHandling` itself is a Go string type,
embedded as `String`. -/
def caseSensitive : String := "sensitive"

def caseIgnore : String := "ignore"

def caseLower : String := "lower"

def caseUpper : String := "upper"

/-- `CaseHandling.IsValid`. -/
def caseIsValid (c : String) : Bool :=
  c == caseSensitive || c == caseIgnore || c == caseLower || c == caseUpper

/-- `Directive` (directive.go): the structured form of one parsed comment. -/
structure Directive where
  typeName : String
  outputFile : String
  trimPrefix : String
  caseMode : String
  deriving Repr, DecidableEq

/-- The flag map of `ParseFlags`: a Go `map[string]string`, embedded as an
association list where insertion overwrites the entry of an existing key. -/
abbrev FlagMap := List (String × String)

/-- Go map assignment `m[k] = v`: overwrite the existing entry or append. -/
def setFlag : FlagMap → String → String → FlagMap
  | [], k, v => [(k, v)]
  | (k', v') :: m, k, v =>
    if k' = k then (k, v) :: m else (k', v') :: setFlag m k v

/-- Go map read `m[k]`: `none` models a missing key. -/
def lookupFlag : FlagMap → String → Option String
  | [], _ => none
  | (k', v') :: m, k => if k' = k then some v' else lookupFlag m k

/-- The cutset of `strings.Trim(value, `"'`)`: both quote characters. -/
def quoteCutset : List Char := ['"', '\'']

/-- The loop body of `ParseFlags`: each whitespace-separated token must
contain `=`; the value is trimmed of all leading/trailing quote characters
and stored, overwriting any earlier occurrence of the same key. -/
def flagsLoop : List String → FlagMap → Except String FlagMap
  | [], m => .ok m
  | p :: ps, m =>
    match goCut p with
    | none => .error ("invalid argument: " ++ p)
    | some (k, v) => flagsLoop ps (setFlag m k (goTrim v quoteCutset))

/-- `ParseFlags` (directive.go): tokenize the comment after the marker into
`key=value` pairs. -/
def ParseFlags (comment : String) : Except String FlagMap :=
  flagsLoop (goFields (goTrimPrefix comment genumMarker)) []

/-- `IsGenumDirective` (directive.go). -/
def IsGenumDirective (comment : String) : Bool :=
  goHasPrefix (goTrimSpace comment) genumMarker

/-- `ParseFromComment` (directive.go). `.ok none` models the Go `(nil, nil)`
return for a comment that is not a genum directive. The Go loop
`for k, v := range flagMap` visits each distinct key once in unspecified
order and each recognized key writes a distinct field, so it is embedded as
one lookup per key. The subsequent defaulting checks keep the source's
order: required `-type`, derived output file, derived trim prefix, case-mode
validation. -/
def ParseFromComment (comment sourceFile : String) : Except String (Option Directive) :=
  let comment := goTrimSpace comment
  if ¬ IsGenumDirective comment then .ok none
  else
    match ParseFlags comment with
    | .error e => .error e
    | .ok flagMap =>
      let d : Directive :=
        { typeName := (lookupFlag flagMap "-type").getD ""
          outputFile := (lookupFlag flagMap "-output").getD ""
          trimPrefix := (lookupFlag flagMap "-trimprefix").getD ""
          caseMode := (lookupFlag flagMap "-case").getD caseSensitive }
      if d.typeName = "" then .error "-type=<type> is required"
      else
        let d :=
          if d.outputFile = "" then
            { d with outputFile := goReplaceOnce sourceFile ".go" "_genum.go" }
          else d
        let d := if d.trimPrefix = "" then { d with trimPrefix := d.typeName } else d
        if ¬ caseIsValid d.caseMode then .error ("invalid argument -case: " ++ d.caseMode)
        else .ok (some d)

/-! ## The `go/types` and `go/ast` data the parser consumes

`parser.go` reads a loaded `packages.Package`: the top-level scope of
resolved objects, the per-file syntax trees, and the `TypesInfo` maps. Only
the parts the parser touches are embedded. A resolved type (`types.Type`)
carries identity for named types: `types.Identical` holds for two named
types exactly when they originate in the same declaration, which the `id`
field models. A Go alias declaration (`type A = T`) introduces no type of
its own: its `types.TypeName` object's `Type()` is `T`'s own type value, so
an alias-declared name is embedded as a scope entry carrying the very same
`GoType`. -/

/-- A resolved `types.Type`, restricted to the cases `TypeString`
distinguishes. `named id u` is a `*types.Named` with declaration identity
`id` and underlying type `u`; `otherType` covers every kind the Go code's
type switch does not name. -/
inductive GoType where
  | basic (name : String)
  | named (id : Nat) (underlying : GoType)
  | pointer (elem : GoType)
  | structType
  | otherType
  deriving Repr, DecidableEq

/-- `Parser.TypeString` (parser.go): classify a resolved type as its base
type name, following named types to their underlying representation. -/
def TypeString : GoType → String
  | .basic n => n
  | .named _ u => TypeString u
  | .pointer e => "*" ++ TypeString e
  | .structType => "struct\x7b\x7d"
  | .otherType => "unsupported"

/-- An initializer expression (`ast.Expr`), restricted to the shapes the
extractor's type switch distinguishes. -/
inductive Expr where
  | basicLit (value : String)
  | ident (name : String)
  | call (fn : String) (args : List Expr)
  | otherExpr
  deriving Repr

/-- An initializer together with what `pkg.TypesInfo.Types[expr]` yields for
it: `resolvedValue` is `tv.Value.ExactString()` when the entry exists and
`tv.Value != nil`, `none` otherwise. -/
structure InitExpr where
  expr : Expr
  resolvedValue : Option String
  deriving Repr

/-- A declared constant name together with the resolved type of
`pkg.TypesInfo.Defs[name]`; `none` models a missing `Defs` entry. -/
structure ConstName where
  name : String
  defType : Option GoType
  deriving Repr, DecidableEq

/-- An `ast.ValueSpec` of a constant group. `typeAnnot` is the lexical type
annotation (`ast.ValueSpec.Type` rendered as an identifier); the resolved
extractor never consults it. -/
structure ValueSpec where
  names : List ConstName
  typeAnnot : Option String
  values : List InitExpr
  deriving Repr

/-- One entry of `decl.Specs`: a `*ast.ValueSpec` or any other spec kind. -/
inductive SpecNode where
  | value (vs : ValueSpec)
  | otherSpec
  deriving Repr

/-- An `*ast.GenDecl`: `isConst` is `decl.Tok == token.CONST`; `docs` is the
texts of `decl.Doc.List`, with `none` modelling `decl.Doc == nil`. -/
structure GenDecl where
  isConst : Bool
  docs : Option (List String)
  specs : List SpecNode
  deriving Repr

/-- A top-level scope entry: a `*types.TypeName` (carrying its resolved
type) or any other object kind. -/
inductive ScopeObj where
  | typeDecl (t : GoType)
  | otherObj
  deriving Repr, DecidableEq

/-- The loaded `packages.Package`: its name, its top-level scope (name to
object, names unique), the const declarations of each syntax file in
traversal order, and whether `TypesInfo` is non-nil. -/
structure Package where
  name : String
  scope : List (String × ScopeObj)
  files : List (List GenDecl)
  typesInfoPresent : Bool
  deriving Repr

/-- `Environment` (loader): the package, the AST of the file under
processing, and that file's name. -/
structure Environment where
  pkg : Package
  sourceFile : List GenDecl
  sourceFileName : String
  deriving Repr

/-- `Environment.PackageName`. -/
def Environment.PackageName (e : Environment) : String := e.pkg.name

/-! ## `internal/parser.go` (the resolved-type variant, the latest) -/

/-- `EnumValue`. -/
structure EnumValue where
  name : String
  value : String
  deriving Repr, DecidableEq

/-- `Enum`. `ParseSingleEnum` leaves `trimPrefix` and `caseMode` as Go zero
values; `Parse` fills them from the directive. -/
structure Enum where
  typeName : String
  baseType : String
  trimPrefix : String
  caseMode : String
  values : List EnumValue
  deriving Repr, DecidableEq

/-- `File`, the generation unit. -/
structure File where
  packageName : String
  source : String
  output : String
  enums : List Enum
  needStringsPackage : Bool
  deriving Repr, DecidableEq

/-- `scope.Lookup(name)`. -/
def scopeLookup : List (String × ScopeObj) → String → Option ScopeObj
  | [], _ => none
  | (n, o) :: rest, k => if n = k then some o else scopeLookup rest k

/-- The scan at the head of `Parser.ProcessConstGroupWithTypes`: walk
`scope.Names()`, keep the first object that is a `*types.TypeName` whose
name is the target, and take its resolved type. -/
def findTypeObj : List (String × ScopeObj) → String → Option GoType
  | [], _ => none
  | (n, obj) :: rest, target =>
    match obj with
    | .typeDecl t => if n = target then some t else findTypeObj rest target
    | .otherObj => findTypeObj rest target

/-- `ast.IsExported(name)`: the first character is an upper-case letter
(ASCII reading of `unicode.IsUpper`). -/
def IsExported (s : String) : Bool :=
  match s.data with
  | [] => false
  | c :: _ => c.isUpper

/-- `Parser.extractConstantValue` (parser.go): prefer the compilation
unit's resolved constant value, rendered and trimmed of double quotes;
otherwise a literal's trimmed text or an identifier's name; anything else
yields the empty string. -/
def extractConstantValue (ie : InitExpr) : String :=
  match ie.resolvedValue with
  | some ex => goTrim ex ['"']
  | none =>
    match ie.expr with
    | .basicLit v => goTrim v ['"']
    | .ident n => n
    | .call _ _ => ""
    | .otherExpr => ""

/-- The body of the `for i, name := range valueSpec.Names` loop of
`ProcessConstGroupWithTypes`: skip a missing `Defs` entry, require
`types.Identical` with the target type, take the initializer at index `i`
when one exists (else the declared name), and keep only exported names. -/
def processName (targetTy : GoType) (vs : ValueSpec) (i : Nat) (cn : ConstName) : List EnumValue :=
  match cn.defType with
  | none => []
  | some ty =>
    if ty = targetTy then
      let value :=
        match vs.values.get? i with
        | some ie => extractConstantValue ie
        | none => cn.name
      if IsExported cn.name then [{ name := cn.name, value := value }] else []
    else []

/-- The indexed walk over `valueSpec.Names`. -/
def processNames (targetTy : GoType) (vs : ValueSpec) : Nat → List ConstName → List EnumValue
  | _, [] => []
  | i, cn :: rest => processName targetTy vs i cn ++ processNames targetTy vs (i + 1) rest

/-- The walk over `decl.Specs`: non-value specs and empty name lists are
skipped. -/
def processSpecs (targetTy : GoType) : List SpecNode → List EnumValue
  | [] => []
  | .value vs :: rest =>
    (if vs.names.isEmpty then [] else processNames targetTy vs 0 vs.names)
      ++ processSpecs targetTy rest
  | .otherSpec :: rest => processSpecs targetTy rest

/-- `Parser.ProcessConstGroupWithTypes` (parser.go): the values this call
appends to `*values` for one const declaration. Nothing is appended when the
target type is not found in the scope. -/
def ProcessConstGroupWithTypes (pkg : Package) (decl : GenDecl) (targetType : String) : List EnumValue :=
  match findTypeObj pkg.scope targetType with
  | none => []
  | some targetTy => processSpecs targetTy decl.specs

/-- The `ast.Inspect` pass of `Parser.ParseConstants` over one file: every
`GenDecl` with `token.CONST` contributes. -/
def constDeclValues (pkg : Package) (targetType : String) : List GenDecl → List EnumValue
  | [] => []
  | d :: rest =>
    (if d.isConst then ProcessConstGroupWithTypes pkg d targetType else [])
      ++ constDeclValues pkg targetType rest

/-- `Parser.ParseConstants` (parser.go): collect over every file of the
compilation unit. -/
def ParseConstants (pkg : Package) (typeName : String) : List EnumValue :=
  (pkg.files.map (constDeclValues pkg typeName)).flatten

/-- `Parser.ParseBaseType` (parser.go): `none` models the nil pointer
(missing `TypesInfo`, unknown name, or a non-type object). -/
def ParseBaseType (pkg : Package) (typeName : String) : Option String :=
  if ¬ pkg.typesInfoPresent then none
  else
    match scopeLookup pkg.scope typeName with
    | none => none
    | some (.typeDecl t) => some (TypeString t)
    | some .otherObj => none

/-- `Parser.ParseSingleEnum` (parser.go). -/
def ParseSingleEnum (pkg : Package) (d : Directive) : Except String Enum :=
  match ParseBaseType pkg d.typeName with
  | none => .error ("type " ++ d.typeName ++ " not found")
  | some bt =>
    if bt = "" then .error ("type " ++ d.typeName ++ " not found")
    else
      let values := ParseConstants pkg d.typeName
      if values.isEmpty then .error ("no values found for enum " ++ d.typeName)
      else
        .ok { typeName := d.typeName, baseType := bt, trimPrefix := "", caseMode := "",
              values := values }

/-- The inner loop of `Parser.ParseFileDirectives` over one declaration's
doc comments. When `ParseFromComment` fails, the Go callback does
`return false`: the error value is discarded, the remaining comments of this
declaration are skipped, and traversal continues with the next declaration. -/
def collectFromDocs (sourceFileName : String) : List String → List Directive
  | [] => []
  | c :: cs =>
    match ParseFromComment c sourceFileName with
    | .error _ => []
    | .ok none => collectFromDocs sourceFileName cs
    | .ok (some d) => d :: collectFromDocs sourceFileName cs

/-- `Parser.ParseFileDirectives` (parser.go): scan every documented
declaration of the source file. The Go function's `error` result is always
`nil` (the closure above swallows parse errors), so the embedding returns
the directive list alone. -/
def ParseFileDirectives (env : Environment) : List Directive :=
  env.sourceFile.foldl
    (fun acc gd =>
      match gd.docs with
      | none => acc
      | some cs => acc ++ collectFromDocs env.sourceFileName cs)
    []

/-- The fresh `File` built when `Parse` first meets an output path. The Go
code guards the flag computation with `if !file.NeedStringsPackage`, which
on a freshly created file is always true, so the flag is simply computed
from this first directive and its enum. -/
def mkFile (env : Environment) (d : Directive) (e : Enum) : File :=
  { packageName := env.PackageName
    source := env.sourceFileName
    output := d.outputFile
    enums := []
    needStringsPackage := decide (d.caseMode ≠ caseSensitive) && e.baseType == "string" }

/-- The Go map write `files[directive.OutputFile].Enums = append(...)`:
append the enum to the unit with the given output path (at most one
exists). -/
def appendEnum : List File → String → Enum → List File
  | [], _, _ => []
  | u :: us, out, e =>
    if u.output = out then { u with enums := u.enums ++ [e] } :: us
    else u :: appendEnum us out e

/-- The directive loop of `Parser.Parse`, with the unit map as an
insertion-ordered association list (the Go map's final iteration order is
unspecified; every claim below is order-insensitive). -/
def ParseLoop (env : Environment) : List Directive → List File → Except String (List File)
  | [], units => .ok units
  | d :: rest, units =>
    match ParseSingleEnum env.pkg d with
    | .error e => .error ("failed to parse enum " ++ d.typeName ++ ": " ++ e)
    | .ok enum0 =>
      let en := { enum0 with trimPrefix := d.trimPrefix, caseMode := d.caseMode }
      let units' :=
        if units.any (fun f => f.output == d.outputFile) then units
        else units ++ [mkFile env d en]
      ParseLoop env rest (appendEnum units' d.outputFile en)

/-- `Parser.Parse` (parser.go). -/
def Parse (env : Environment) : Except String (List File) :=
  let directives := ParseFileDirectives env
  if directives.isEmpty then .error "no genum directives found"
  else ParseLoop env directives []

/-! ## Concrete fixtures

A small compilation unit: `type Color string` with `const Red Color = "red"`
and `type Size string` with `const Small Size = "small"`. -/

/-- The resolved type of `type Color string`. -/
def tyColor : GoType := .named 0 (.basic "string")

/-- The resolved type of `type Size string`. -/
def tySize : GoType := .named 1 (.basic "string")

/-- `const Red Color = "red"`. -/
def declRed : GenDecl :=
  { isConst := true, docs := none,
    specs := [.value { names := [{ name := "Red", defType := some tyColor }],
                       typeAnnot := some "Color",
                       values := [{ expr := .basicLit "\"red\"",
                                    resolvedValue := some "\"red\"" }] }] }

/-- `const Small Size = "small"`. -/
def declSmall : GenDecl :=
  { isConst := true, docs := none,
    specs := [.value { names := [{ name := "Small", defType := some tySize }],
                       typeAnnot := some "Size",
                       values := [{ expr := .basicLit "\"small\"",
                                    resolvedValue := some "\"small\"" }] }] }

/-- The loaded package of the fixture unit. -/
def pkgColors : Package :=
  { name := "demo",
    scope := [("Color", .typeDecl tyColor), ("Size", .typeDecl tySize)],
    files := [[declRed, declSmall]],
    typesInfoPresent := true }

/-- A source file whose single declaration carries one malformed directive
comment (`-type` has no `=`), over an otherwise empty package. -/
def envMalformed : Environment :=
  { pkg := { name := "demo", scope := [], files := [], typesInfoPresent := true },
    sourceFile := [{ isConst := false, docs := some ["//go:generate genum -type"],
                     specs := [] }],
    sourceFileName := "demo.go" }

/-- A source file with a malformed directive on one declaration and a valid
`-type=Color` directive on the next. -/
def envMalformedThenValid : Environment :=
  { pkg := pkgColors,
    sourceFile := [{ isConst := false, docs := some ["//go:generate genum -type"],
                     specs := [] },
                   { isConst := false, docs := some ["//go:generate genum -type=Color"],
                     specs := [] }],
    sourceFileName := "demo.go" }

/-- A single-quote character (for building directive strings that carry
quoted values). -/
def sq : Char := '\''

/-- The single-quote character as a one-character string. -/
def sqStr : String := ⟨[sq]⟩

/-- A directive whose `-type` value wears two pairs of single quotes. -/
def dirDoubleQuoted : String :=
  genumMarker ++ "-type=" ++ sqStr ++ sqStr ++ "Status" ++ sqStr ++ sqStr

/-- A directive whose `-type` value has a double quote on the left and a
single quote on the right. -/
def dirMismatchedQuotes : String :=
  genumMarker ++ "-type=\"Status" ++ sqStr

/-- Modelled from the claim's words (C10): the trimmed value of the LAST
token assigning key `k` — a later token takes precedence — and `none` when
no token assigns `k`. Compared against the source-derived `flagsLoop`. -/
def lastOccurrenceValue : List String → String → Option String
  | [], _ => none
  | p :: ps, k =>
    match lastOccurrenceValue ps k with
    | some v => some v
    | none =>
      match goCut p with
      | some (k', v) => if k' = k then some (goTrim v quoteCutset) else none
      | none => none

/-- `const Foo Color = Color("x")` as seen by the heuristic tier: the
initializer is a conversion call and the `TypesInfo.Types` entry is absent,
so no resolved constant value is available. -/
def declCallInit : GenDecl :=
  { isConst := true, docs := none,
    specs := [.value { names := [{ name := "Foo", defType := some tyColor }],
                       typeAnnot := none,
                       values := [{ expr := .call "Color" [.ident "x"],
                                    resolvedValue := none }] }] }

/-- `const Draft ColorAlias = "draft"` where `type ColorAlias = Color` is a
Go alias declaration: the alias's `types.TypeName` carries `Color`'s own
resolved type, and the constant's `Defs` entry resolves to that same type. -/
def declAliasConst : GenDecl :=
  { isConst := true, docs := none,
    specs := [.value { names := [{ name := "Draft", defType := some tyColor }],
                       typeAnnot := some "ColorAlias",
                       values := [{ expr := .basicLit "\"draft\"",
                                    resolvedValue := some "\"draft\"" }] }] }

/-- `const Dark Hue = "dark"` for `type Hue string`: a differently-named
defined type with the same underlying representation as `Color`. -/
def declHueConst : GenDecl :=
  { isConst := true, docs := none,
    specs := [.value { names := [{ name := "Dark", defType := some (.named 2 (.basic "string")) }],
                       typeAnnot := some "Hue",
                       values := [{ expr := .basicLit "\"dark\"",
                                    resolvedValue := some "\"dark\"" }] }] }

/-- `const red Color = "r"`: an unexported constant of the target type. -/
def declUnexported : GenDecl :=
  { isConst := true, docs := none,
    specs := [.value { names := [{ name := "red", defType := some tyColor }],
                       typeAnnot := some "Color",
                       values := [{ expr := .basicLit "\"r\"",
                                    resolvedValue := some "\"r\"" }] }] }

/-- A package with the target type `Color`, the alias `ColorAlias` (same
resolved type), and the distinct defined type `Hue`. -/
def pkgWithAlias : Package :=
  { name := "demo",
    scope := [("Color", .typeDecl tyColor), ("ColorAlias", .typeDecl tyColor),
              ("Hue", .typeDecl (.named 2 (.basic "string")))],
    files := [[declAliasConst, declHueConst, declUnexported]],
    typesInfoPresent := true }

/-- `type Status string` whose only constant is the unexported
`const draft Status = "d"`. -/
def pkgNoValues : Package :=
  { name := "demo",
    scope := [("Status", .typeDecl (.named 3 (.basic "string")))],
    files := [[{ isConst := true, docs := none,
                 specs := [.value { names := [{ name := "draft",
                                                defType := some (.named 3 (.basic "string")) }],
                                    typeAnnot := some "Status",
                                    values := [{ expr := .basicLit "\"d\"",
                                                 resolvedValue := some "\"d\"" }] }] }]],
    typesInfoPresent := true }

/-- An environment directing generation of `Status` over `pkgNoValues`. -/
def envNoValues : Environment :=
  { pkg := pkgNoValues,
    sourceFile := [{ isConst := false,
                     docs := some ["//go:generate genum -type=Status -output=s.go"],
                     specs := [] }],
    sourceFileName := "status.go" }

/-- The enum `Parse` associates to a directive: `ParseSingleEnum`'s result
with the directive's trim prefix and case mode filled in; `none` when the
enum fails to parse. -/
def enumOf (env : Environment) (d : Directive) : Option Enum :=
  match ParseSingleEnum env.pkg d with
  | .error _ => none
  | .ok e0 => some { e0 with trimPrefix := d.trimPrefix, caseMode := d.caseMode }

/-- The strings-package condition `Parse` evaluates when it creates the unit
for directive `d`: case mode other than sensitive and a `string` base type
(false when the directive's enum does not parse). -/
def needStringsOfDirective (env : Environment) (d : Directive) : Bool :=
  match ParseSingleEnum env.pkg d with
  | .error _ => false
  | .ok e0 => decide (d.caseMode ≠ caseSensitive) && (e0.baseType == "string")

/-- The condition of the FIRST directive carrying output path `out` (false
when no directive does). -/
def firstNeedsStrings (env : Environment) (ds : List Directive) (out : String) : Bool :=
  match ds.find? (fun d => d.outputFile == out) with
  | none => false
  | some d => needStringsOfDirective env d

/-- Two directives aggregating into one output file `o.go`; only the
second requires case folding of its string-backed enum. -/
def envTwoDirOneOutput : Environment :=
  { pkg := pkgColors,
    sourceFile :=
      [{ isConst := false,
         docs := some ["//go:generate genum -type=Color -output=o.go"], specs := [] },
       { isConst := false,
         docs := some ["//go:generate genum -type=Size -output=o.go -case=ignore"],
         specs := [] }],
    sourceFileName := "demo.go" }

/-- Three directives: two sharing output `o.go`, one with output `p.go`. -/
def envThreeDirectives : Environment :=
  { pkg := pkgColors,
    sourceFile :=
      [{ isConst := false,
         docs := some ["//go:generate genum -type=Color -output=o.go"], specs := [] },
       { isConst := false,
         docs := some ["//go:generate genum -type=Size -output=o.go"], specs := [] },
       { isConst := false,
         docs := some ["//go:generate genum -type=Color -output=p.go"], specs := [] }],
    sourceFileName := "demo.go" }

/-- The `Color` enum as `Parse` fills it for a `sensitive` directive. -/
def enumColorO : Enum :=
  { typeName := "Color", baseType := "string", trimPrefix := "Color",
    caseMode := "sensitive", values := [{ name := "Red", value := "red" }] }
/-- The `Size` enum under `-case=ignore`. -/
def enumSizeIgnore : Enum :=
  { typeName := "Size", baseType := "string", trimPrefix := "Size",
    caseMode := "ignore", values := [{ name := "Small", value := "small" }] }
/-- The `Size` enum under the default case mode. -/
def enumSizeO : Enum :=
  { typeName := "Size", baseType := "string", trimPrefix := "Size",
    caseMode := "sensitive", values := [{ name := "Small", value := "small" }] }
/-- The single unit `Parse` produces for `envTwoDirOneOutput`. -/
def fileTwoDir : File :=
  { packageName := "demo", source := "demo.go", output := "o.go",
    enums := [enumColorO, enumSizeIgnore], needStringsPackage := false }
/-- The `o.go` unit `Parse` produces for `envThreeDirectives`. -/
def fileOGo : File :=
  { packageName := "demo", source := "demo.go", output := "o.go",
    enums := [enumColorO, enumSizeO], needStringsPackage := false }
/-- The `p.go` unit `Parse` produces for `envThreeDirectives`. -/
def filePGo : File :=
  { packageName := "demo", source := "demo.go", output := "p.go",
    enums := [enumColorO], needStringsPackage := false }

/-! ## Helper lemmas -/

/-- `appendEnum` changes only the `enums` field of (the first unit carrying)
the given output path: every element of the result matches an element of the
input on every other field. -/
theorem mem_appendEnum :
    ∀ (us : List File) (out : String) (en : Enum) (f' : File), f' ∈ appendEnum us out en →
      ∃ u ∈ us, u.output = f'.output ∧ u.needStringsPackage = f'.needStringsPackage ∧
        u.packageName = f'.packageName ∧ u.source = f'.source
  | [], out, en, f', h => by simp [appendEnum] at h
  | u :: us, out, en, f', h => by
    unfold appendEnum at h
    by_cases hu : u.output = out
    · rw [if_pos hu] at h
      rcases List.mem_cons.mp h with h | h
      · exact ⟨u, List.mem_cons_self u us, by subst h; simp⟩
      · exact ⟨f', List.mem_cons_of_mem u h, rfl, rfl, rfl, rfl⟩
    · rw [if_neg hu] at h
      rcases List.mem_cons.mp h with h | h
      · exact ⟨u, List.mem_cons_self u us, by subst h; simp⟩
      · rcases mem_appendEnum us out en f' h with ⟨w, hw, hws⟩
        exact ⟨w, List.mem_cons_of_mem u hw, hws⟩

/-- Forward direction: every input unit reappears in `appendEnum`'s result
with the same output, flag, package and source. -/
theorem mem_appendEnum_fwd :
    ∀ (us : List File) (out : String) (en : Enum) (u : File), u ∈ us →
      ∃ f' ∈ appendEnum us out en, f'.output = u.output ∧
        f'.needStringsPackage = u.needStringsPackage ∧
        f'.packageName = u.packageName ∧ f'.source = u.source
  | [], out, en, u, h => by simp at h
  | v :: us, out, en, u, h => by
    unfold appendEnum
    by_cases hv : v.output = out
    · rw [if_pos hv]
      rcases List.mem_cons.mp h with h | h
      · exact ⟨_, List.mem_cons_self _ _, by subst h; simp⟩
      · exact ⟨u, List.mem_cons_of_mem _ h, rfl, rfl, rfl, rfl⟩
    · rw [if_neg hv]
      rcases List.mem_cons.mp h with h | h
      · exact ⟨v, List.mem_cons_self _ _, by subst h; simp⟩
      · rcases mem_appendEnum_fwd us out en u h with ⟨w, hw, hws⟩
        exact ⟨w, List.mem_cons_of_mem _ hw, hws⟩

/-- `appendEnum` preserves the list of output paths. -/
theorem appendEnum_outputs :
    ∀ (us : List File) (out : String) (en : Enum),
      (appendEnum us out en).map File.output = us.map File.output
  | [], out, en => rfl
  | u :: us, out, en => by
    unfold appendEnum
    by_cases hu : u.output = out
    · rw [if_pos hu]; simp
    · rw [if_neg hu]
      simp [appendEnum_outputs us out en]

/-- `find?` by a key other than the appended output is unchanged. -/
theorem appendEnum_find?_other :
    ∀ (us : List File) (out key : String) (en : Enum), key ≠ out →
      (appendEnum us out en).find? (fun u => u.output == key) =
        us.find? (fun u => u.output == key)
  | [], out, key, en, hk => rfl
  | u :: us, out, key, en, hk => by
    unfold appendEnum
    by_cases hu : u.output = out
    · rw [if_pos hu]
      have hne : (u.output == key) = false := by
        rw [hu]
        exact beq_eq_false_iff_ne.mpr (fun h => hk h.symm)
      rw [List.find?_cons_of_neg _ (by simpa using hne),
        List.find?_cons_of_neg _ (by simp [hne])]
    · rw [if_neg hu]
      by_cases h2 : u.output = key
      · rw [List.find?_cons_of_pos _ (by simp [h2]), List.find?_cons_of_pos _ (by simp [h2])]
      · rw [List.find?_cons_of_neg _ (by simp [h2]), List.find?_cons_of_neg _ (by simp [h2])]
        exact appendEnum_find?_other us out key en hk

/-- `find?` by the appended output sees the updated unit. -/
theorem appendEnum_find?_self :
    ∀ (us : List File) (out : String) (en : Enum),
      (appendEnum us out en).find? (fun u => u.output == out) =
        (us.find? (fun u => u.output == out)).map
          (fun u => { u with enums := u.enums ++ [en] })
  | [], out, en => rfl
  | u :: us, out, en => by
    unfold appendEnum
    by_cases hu : u.output = out
    · rw [if_pos hu]
      rw [List.find?_cons_of_pos _ (by simp [hu]), List.find?_cons_of_pos _ (by simp [hu])]
      rfl
    · rw [if_neg hu]
      rw [List.find?_cons_of_neg _ (by simp [hu]), List.find?_cons_of_neg _ (by simp [hu])]
      exact appendEnum_find?_self us out en

/-- When no existing unit carries the output, `appendEnum` over the list
extended with a fresh unit of that output updates exactly that unit. -/
theorem appendEnum_append_fresh :
    ∀ (us : List File) (v : File) (out : String) (en : Enum),
      (∀ u ∈ us, u.output ≠ out) → v.output = out →
      appendEnum (us ++ [v]) out en = us ++ [{ v with enums := v.enums ++ [en] }]
  | [], v, out, en, hn, hv => by
    simp [appendEnum, hv]
  | u :: us, v, out, en, hn, hv => by
    have hu : u.output ≠ out := hn u (List.mem_cons_self u us)
    simp only [List.cons_append]
    unfold appendEnum
    rw [if_neg hu]
    rw [appendEnum_append_fresh us v out en (fun w hw => hn w (List.mem_cons_of_mem u hw)) hv]

/-- Every unit in the accumulator survives the directive loop with its
output, flag, package and source unchanged. -/
theorem parseLoop_mono (env : Environment) :
    ∀ (ds : List Directive) (units files : List File),
      ParseLoop env ds units = .ok files → ∀ u ∈ units,
      ∃ f ∈ files, f.output = u.output ∧ f.needStringsPackage = u.needStringsPackage ∧
        f.packageName = u.packageName ∧ f.source = u.source
  | [], units, files, h, u, hu => by
    cases h
    exact ⟨u, hu, rfl, rfl, rfl, rfl⟩
  | d :: rest, units, files, h, u, hu => by
    unfold ParseLoop at h
    rcases he : ParseSingleEnum env.pkg d with msg | enum0 <;> rw [he] at h
    · exact absurd h (by simp)
    · simp only [] at h
      by_cases hex : units.any (fun f => f.output == d.outputFile) = true
      · rw [if_pos hex] at h
        rcases mem_appendEnum_fwd units d.outputFile _ u hu with ⟨f', hf', e1, e2, e3, e4⟩
        rcases parseLoop_mono env rest _ files h f' hf' with ⟨f, hf, g1, g2, g3, g4⟩
        exact ⟨f, hf, by rw [g1, e1], by rw [g2, e2], by rw [g3, e3], by rw [g4, e4]⟩
      · rw [if_neg hex] at h
        have hu' : u ∈ units ++ [mkFile env d { enum0 with trimPrefix := d.trimPrefix, caseMode := d.caseMode }] :=
          List.mem_append_left _ hu
        rcases mem_appendEnum_fwd _ d.outputFile _ u hu' with ⟨f', hf', e1, e2, e3, e4⟩
        rcases parseLoop_mono env rest _ files h f' hf' with ⟨f, hf, g1, g2, g3, g4⟩
        exact ⟨f, hf, by rw [g1, e1], by rw [g2, e2], by rw [g3, e3], by rw [g4, e4]⟩

/-- Through the directive loop, a produced unit's strings flag either came
with the accumulator or equals the condition of the first remaining
directive carrying its output path. -/
theorem parseLoop_flag (env : Environment) :
    ∀ (ds : List Directive) (units files : List File),
      ParseLoop env ds units = .ok files → ∀ f ∈ files,
      (∃ u ∈ units, u.output = f.output ∧ u.needStringsPackage = f.needStringsPackage) ∨
      ((∀ u ∈ units, u.output ≠ f.output) ∧
        ∃ d, ds.find? (fun d' => d'.outputFile == f.output) = some d ∧
          f.needStringsPackage = needStringsOfDirective env d)
  | [], units, files, h, f, hf => by
    cases h
    exact Or.inl ⟨f, hf, rfl, rfl⟩
  | d :: rest, units, files, h, f, hf => by
    unfold ParseLoop at h
    rcases he : ParseSingleEnum env.pkg d with msg | enum0 <;> rw [he] at h
    · exact absurd h (by simp)
    · simp only [] at h
      by_cases hex : units.any (fun u => u.output == d.outputFile) = true
      · rw [if_pos hex] at h
        rcases parseLoop_flag env rest _ files h f hf with ⟨u', hu', e1, e2⟩ | ⟨hall, d', hfind, hflag⟩
        · rcases mem_appendEnum units d.outputFile _ u' hu' with ⟨u, hu, g1, g2, _, _⟩
          exact Or.inl ⟨u, hu, by rw [g1, e1], by rw [g2, e2]⟩
        · have hnu : ∀ u ∈ units, u.output ≠ f.output := by
            intro u hu
            rcases mem_appendEnum_fwd units d.outputFile _ u hu with ⟨f', hf', e1, _, _, _⟩
            rw [← e1]
            exact hall f' hf'
          have hdne : d.outputFile ≠ f.output := by
            rcases List.any_eq_true.mp hex with ⟨u₀, hu₀, hbeq⟩
            rw [← beq_iff_eq.mp hbeq]
            exact hnu u₀ hu₀
          refine Or.inr ⟨hnu, d', ?_, hflag⟩
          rw [List.find?_cons_of_neg _ (by simp [fun h => hdne h]), hfind]
      · rw [if_neg hex] at h
        have hnone : ∀ u ∈ units, u.output ≠ d.outputFile := by
          intro u hu heq
          exact hex (List.any_eq_true.mpr ⟨u, hu, beq_iff_eq.mpr heq⟩)
        rw [appendEnum_append_fresh units _ d.outputFile _ hnone rfl] at h
        rcases parseLoop_flag env rest _ files h f hf with ⟨u', hu', e1, e2⟩ | ⟨hall, d', hfind, hflag⟩
        · rcases List.mem_append.mp hu' with hu' | hu'
          · exact Or.inl ⟨u', hu', e1, e2⟩
          · rw [List.mem_singleton] at hu'
            subst hu'
            have hout : f.output = d.outputFile := by rw [← e1]; rfl
            refine Or.inr ⟨fun u hu h' => hnone u hu (hout ▸ h'), d, ?_, ?_⟩
            · rw [List.find?_cons_of_pos _ (by simp [hout])]
            · rw [← e2]
              simp only [needStringsOfDirective, he, mkFile]
        · refine Or.inr ⟨fun u hu => hall u (List.mem_append_left _ hu), d', ?_, hflag⟩
          have hdne : d.outputFile ≠ f.output :=
            hall _ (List.mem_append_right _ (List.mem_singleton_self _))
          rw [List.find?_cons_of_neg _ (by simp [fun h => hdne h]), hfind]

/-- With pairwise-distinct outputs, looking up a member's output finds that
member. -/
theorem find?_output_of_mem :
    ∀ (us : List File) (f : File), (us.map File.output).Nodup → f ∈ us →
      us.find? (fun u => u.output == f.output) = some f
  | [], f, hnd, hf => absurd hf (List.not_mem_nil f)
  | u :: us, f, hnd, hf => by
    rcases List.mem_cons.mp hf with hf | hf
    · subst hf
      exact List.find?_cons_of_pos _ (by simp)
    · have hne : u.output ≠ f.output := by
        intro heq
        have : f.output ∈ us.map File.output := List.mem_map_of_mem File.output hf
        rw [List.map_cons] at hnd
        exact (List.nodup_cons.mp hnd).1 (heq ▸ this)
      rw [List.find?_cons_of_neg _ (by simp [hne])]
      exact find?_output_of_mem us f (List.nodup_cons.mp (by rw [List.map_cons] at hnd; exact hnd)).2 hf

/-- The loop preserves distinctness of unit output paths. -/
theorem parseLoop_nodup (env : Environment) :
    ∀ (ds : List Directive) (units files : List File),
      ParseLoop env ds units = .ok files → (units.map File.output).Nodup →
      (files.map File.output).Nodup
  | [], units, files, h, hnd => by cases h; exact hnd
  | d :: rest, units, files, h, hnd => by
    unfold ParseLoop at h
    rcases he : ParseSingleEnum env.pkg d with msg | enum0 <;> rw [he] at h
    · exact absurd h (by simp)
    · simp only [] at h
      by_cases hex : units.any (fun u => u.output == d.outputFile) = true
      · rw [if_pos hex] at h
        exact parseLoop_nodup env rest _ files h (by rw [appendEnum_outputs]; exact hnd)
      · rw [if_neg hex] at h
        have hnone : ∀ u ∈ units, u.output ≠ d.outputFile := by
          intro u hu heq
          exact hex (List.any_eq_true.mpr ⟨u, hu, beq_iff_eq.mpr heq⟩)
        rw [appendEnum_append_fresh units _ d.outputFile _ hnone rfl] at h
        refine parseLoop_nodup env rest _ files h ?_
        rw [List.map_append]
        rw [List.nodup_append]
        refine ⟨hnd, List.nodup_singleton _, ?_⟩
        intro x hx hy
        simp only [List.map_cons, List.map_nil, List.mem_singleton] at hy
        rcases List.mem_map.mp hx with ⟨u, hu, hux⟩
        exact hnone u hu (by rw [hux, hy]; rfl)

/-- Every produced unit either entered through the accumulator or was
created by the loop with the environment's package and source file names,
for some directive's output path. -/
theorem parseLoop_origin (env : Environment) :
    ∀ (ds : List Directive) (units files : List File),
      ParseLoop env ds units = .ok files → ∀ f ∈ files,
      (∃ u ∈ units, u.output = f.output ∧ u.packageName = f.packageName ∧
        u.source = f.source) ∨
      (f.packageName = env.PackageName ∧ f.source = env.sourceFileName ∧
        ∃ d ∈ ds, d.outputFile = f.output)
  | [], units, files, h, f, hf => by
    cases h
    exact Or.inl ⟨f, hf, rfl, rfl, rfl⟩
  | d :: rest, units, files, h, f, hf => by
    unfold ParseLoop at h
    rcases he : ParseSingleEnum env.pkg d with msg | enum0 <;> rw [he] at h
    · exact absurd h (by simp)
    · simp only [] at h
      by_cases hex : units.any (fun u => u.output == d.outputFile) = true
      · rw [if_pos hex] at h
        rcases parseLoop_origin env rest _ files h f hf with ⟨u', hu', e1, e2, e3⟩ | ⟨e1, e2, d', hd', e3⟩
        · rcases mem_appendEnum units d.outputFile _ u' hu' with ⟨u, hu, g1, _, g3, g4⟩
          exact Or.inl ⟨u, hu, by rw [g1, e1], by rw [g3, e2], by rw [g4, e3]⟩
        · exact Or.inr ⟨e1, e2, d', List.mem_cons_of_mem d hd', e3⟩
      · rw [if_neg hex] at h
        have hnone : ∀ u ∈ units, u.output ≠ d.outputFile := by
          intro u hu heq
          exact hex (List.any_eq_true.mpr ⟨u, hu, beq_iff_eq.mpr heq⟩)
        rw [appendEnum_append_fresh units _ d.outputFile _ hnone rfl] at h
        rcases parseLoop_origin env rest _ files h f hf with ⟨u', hu', e1, e2, e3⟩ | ⟨e1, e2, d', hd', e3⟩
        · rcases List.mem_append.mp hu' with hu' | hu'
          · exact Or.inl ⟨u', hu', e1, e2, e3⟩
          · rw [List.mem_singleton] at hu'
            subst hu'
            refine Or.inr ⟨by rw [← e2]; rfl, by rw [← e3]; rfl, d, List.mem_cons_self d rest, by rw [← e1]; rfl⟩
        · exact Or.inr ⟨e1, e2, d', List.mem_cons_of_mem d hd', e3⟩

/-- Every directive's output path appears among the produced units. -/
theorem parseLoop_cover (env : Environment) :
    ∀ (ds : List Directive) (units files : List File),
      ParseLoop env ds units = .ok files →
      ∀ d ∈ ds, ∃ f ∈ files, f.output = d.outputFile
  | [], units, files, h, d, hd => absurd hd (List.not_mem_nil d)
  | d0 :: rest, units, files, h, d, hd => by
    unfold ParseLoop at h
    rcases he : ParseSingleEnum env.pkg d0 with msg | enum0 <;> rw [he] at h
    · exact absurd h (by simp)
    · simp only [] at h
      rcases List.mem_cons.mp hd with hd | hd
      · subst hd
        by_cases hex : units.any (fun u => u.output == d.outputFile) = true
        · rw [if_pos hex] at h
          rcases List.any_eq_true.mp hex with ⟨u₀, hu₀, hbeq⟩
          rcases mem_appendEnum_fwd units d.outputFile _ u₀ hu₀ with ⟨f', hf', g1, _, _, _⟩
          rcases parseLoop_mono env rest _ files h f' hf' with ⟨f, hf, e1, _, _, _⟩
          exact ⟨f, hf, by rw [e1, g1]; exact beq_iff_eq.mp hbeq⟩
        · rw [if_neg hex] at h
          have hnone : ∀ u ∈ units, u.output ≠ d.outputFile := by
            intro u hu heq
            exact hex (List.any_eq_true.mpr ⟨u, hu, beq_iff_eq.mpr heq⟩)
          rw [appendEnum_append_fresh units _ d.outputFile _ hnone rfl] at h
          have hmem := List.mem_append_right units (List.mem_singleton_self
            ({ mkFile env d { enum0 with trimPrefix := d.trimPrefix, caseMode := d.caseMode } with
               enums := (mkFile env d { enum0 with trimPrefix := d.trimPrefix, caseMode := d.caseMode }).enums ++
                 [{ enum0 with trimPrefix := d.trimPrefix, caseMode := d.caseMode }] }))
          rcases parseLoop_mono env rest _ files h _ hmem with ⟨f, hf, e1, _, _, _⟩
          exact ⟨f, hf, by rw [e1]; rfl⟩
      · exact parseLoop_cover env rest _ files h d hd

/-- Through the directive loop, a produced unit's enums are those it entered
with (the first accumulator unit of its output path) followed by the enums
of the remaining directives with that output path, in encounter order. -/
theorem parseLoop_enums (env : Environment) :
    ∀ (ds : List Directive) (units files : List File),
      ParseLoop env ds units = .ok files → (units.map File.output).Nodup →
      ∀ f ∈ files,
      f.enums =
        (match units.find? (fun u => u.output == f.output) with
         | some u => u.enums
         | none => []) ++
        ((ds.filter (fun d => d.outputFile == f.output)).filterMap (enumOf env))
  | [], units, files, h, hnd, f, hf => by
    cases h
    rw [find?_output_of_mem units f hnd hf]
    simp
  | d :: rest, units, files, h, hnd, f, hf => by
    unfold ParseLoop at h
    rcases he : ParseSingleEnum env.pkg d with msg | enum0 <;> rw [he] at h
    · exact absurd h (by simp)
    · simp only [] at h
      have henum : enumOf env d =
          some { enum0 with trimPrefix := d.trimPrefix, caseMode := d.caseMode } := by
        unfold enumOf
        rw [he]
      by_cases hex : units.any (fun u => u.output == d.outputFile) = true
      · rw [if_pos hex] at h
        have hnd₂ : ((appendEnum units d.outputFile
            { enum0 with trimPrefix := d.trimPrefix, caseMode := d.caseMode }).map
              File.output).Nodup := by
          rw [appendEnum_outputs]
          exact hnd
        have ih := parseLoop_enums env rest _ files h hnd₂ f hf
        by_cases hfo : d.outputFile = f.output
        · rw [← hfo] at ih ⊢
          rw [appendEnum_find?_self] at ih
          have hissome : (units.find? (fun u => u.output == d.outputFile)).isSome := by
            rw [List.find?_isSome]
            rcases List.any_eq_true.mp hex with ⟨u₀, hu₀, hb⟩
            exact ⟨u₀, hu₀, hb⟩
          rcases Option.isSome_iff_exists.mp hissome with ⟨u₀, hu₀⟩
          rw [hu₀] at ih
          rw [hu₀, List.filter_cons_of_pos (by simp), List.filterMap_cons, henum]
          simp only [Option.map_some'] at ih
          rw [ih]
          simp
        · rw [appendEnum_find?_other units d.outputFile f.output _
            (fun hh => hfo hh.symm)] at ih
          rw [List.filter_cons_of_neg (by simp [fun hh => hfo hh])]
          exact ih
      · rw [if_neg hex] at h
        have hnone : ∀ u ∈ units, u.output ≠ d.outputFile := by
          intro u hu heq
          exact hex (List.any_eq_true.mpr ⟨u, hu, beq_iff_eq.mpr heq⟩)
        rw [appendEnum_append_fresh units _ d.outputFile _ hnone rfl] at h
        generalize hmk : ({ mkFile env d
            { enum0 with trimPrefix := d.trimPrefix, caseMode := d.caseMode } with
            enums := (mkFile env d
              { enum0 with trimPrefix := d.trimPrefix, caseMode := d.caseMode }).enums ++
              [{ enum0 with trimPrefix := d.trimPrefix, caseMode := d.caseMode }] } : File) = mk at h
        have hmkout : mk.output = d.outputFile := by rw [← hmk]; rfl
        have hmkenums : mk.enums =
            [{ enum0 with trimPrefix := d.trimPrefix, caseMode := d.caseMode }] := by
          rw [← hmk]; rfl
        have hnd₂ : ((units ++ [mk]).map File.output).Nodup := by
          rw [List.map_append, List.nodup_append]
          refine ⟨hnd, List.nodup_singleton _, ?_⟩
          intro x hx hy
          simp only [List.map_cons, List.map_nil, List.mem_singleton] at hy
          rcases List.mem_map.mp hx with ⟨u, hu, hux⟩
          exact hnone u hu (by rw [hux, hy, hmkout])
        have ih := parseLoop_enums env rest _ files h hnd₂ f hf
        have hn : units.find? (fun u => u.output == f.output) =
            units.find? (fun u => u.output == f.output) := rfl
        by_cases hfo : d.outputFile = f.output
        · rw [← hfo] at ih ⊢
          rw [List.find?_append] at ih
          have hn : units.find? (fun u => u.output == d.outputFile) = none :=
            List.find?_eq_none.mpr (fun u hu => by simp [hnone u hu])
          have hpos : ([mk] : List File).find? (fun u => u.output == d.outputFile) = some mk :=
            List.find?_cons_of_pos _ (by simp [hmkout])
          rw [hn, hpos, Option.none_or] at ih
          have hred : (match (some mk : Option File) with
              | some u => u.enums
              | none => ([] : List Enum)) = mk.enums := rfl
          rw [hred, hmkenums] at ih
          have hred2 : (match (none : Option File) with
              | some u => u.enums
              | none => ([] : List Enum)) = ([] : List Enum) := rfl
          rw [hn, hred2, List.filter_cons_of_pos (by simp), List.filterMap_cons, henum]
          rw [ih]
          rfl
        · rw [List.find?_append] at ih
          have hsing : ([mk] : List File).find? (fun u => u.output == f.output) = none := by
            refine List.find?_eq_none.mpr ?_
            intro u hu
            rw [List.mem_singleton] at hu
            subst hu
            simp [hmkout]
            exact fun hh => hfo hh
          rw [hsing, Option.or_none] at ih
          rw [List.filter_cons_of_neg (by simp [fun hh => hfo hh])]
          exact ih

/-- The head of `dropWhile p l` never satisfies `p`. -/
theorem head_dropWhile_false {α : Type} (p : α → Bool) :
    ∀ (l : List α) (c : α), (l.dropWhile p).head? = some c → p c = false
  | [], c, h => by simp [List.dropWhile] at h
  | x :: xs, c, h => by
    by_cases hx : p x
    · rw [List.dropWhile_cons_of_pos hx] at h
      exact head_dropWhile_false p xs c h
    · rw [List.dropWhile_cons_of_neg hx] at h
      simp at h
      rw [← h]
      exact Bool.of_not_eq_true hx

/-- Characterization of `strings.Trim`: the result is `s` with a (possibly
empty) run of cutset characters removed from each end, and what remains
neither starts nor ends with a cutset character. -/
theorem goTrim_spec (s : String) (cut : List Char) :
    ∃ a b : List Char,
      s.data = a ++ (goTrim s cut).data ++ b ∧
      (∀ c ∈ a, cut.contains c = true) ∧
      (∀ c ∈ b, cut.contains c = true) ∧
      (∀ c, (goTrim s cut).data.head? = some c → cut.contains c = false) ∧
      (∀ c, (goTrim s cut).data.getLast? = some c → cut.contains c = false) := by
  set p : Char → Bool := cut.contains with hp
  set l : List Char := s.data with hl
  have htrim : (goTrim s cut).data = ((l.dropWhile p).reverse.dropWhile p).reverse := rfl
  set m : List Char := l.dropWhile p with hm
  refine ⟨l.takeWhile p, (m.reverse.takeWhile p).reverse, ?_, ?_, ?_, ?_, ?_⟩
  · rw [htrim]
    conv_lhs => rw [← List.takeWhile_append_dropWhile (p := p) (l := l)]
    rw [← hm, List.append_assoc]
    congr 1
    have : m = (m.reverse.takeWhile p ++ m.reverse.dropWhile p).reverse := by
      rw [List.takeWhile_append_dropWhile, List.reverse_reverse]
    conv_lhs => rw [this]
    rw [List.reverse_append]
  · intro c hc
    exact List.mem_takeWhile_imp hc
  · intro c hc
    rw [List.mem_reverse] at hc
    exact List.mem_takeWhile_imp hc
  · intro c hc
    rw [htrim, List.head?_reverse] at hc
    rcases hne : m.reverse.dropWhile p with _ | ⟨x, xs⟩
    · rw [hne] at hc; simp at hc
    · have : (m.reverse.dropWhile p).getLast? = m.reverse.getLast? := by
        conv_rhs => rw [← List.takeWhile_append_dropWhile (p := p) (l := m.reverse)]
        rw [List.getLast?_append_of_ne_nil _ (by rw [hne]; simp)]
      rw [this, ← List.head?_reverse, List.reverse_reverse] at hc
      exact head_dropWhile_false p l c hc
  · intro c hc
    rw [htrim] at hc
    rw [← List.head?_reverse, List.reverse_reverse] at hc
    exact head_dropWhile_false p m.reverse c hc

/-- `lookupFlag` after `setFlag` at the written key. -/
theorem lookupFlag_setFlag_self :
    ∀ (m : FlagMap) (k v : String), lookupFlag (setFlag m k v) k = some v
  | [], k, v => by simp [setFlag, lookupFlag]
  | (k', v') :: m, k, v => by
    by_cases h : k' = k
    · simp [setFlag, lookupFlag, h]
    · simp only [setFlag, lookupFlag, if_neg h]
      exact lookupFlag_setFlag_self m k v

/-- `lookupFlag` after `setFlag` at a different key. -/
theorem lookupFlag_setFlag_other :
    ∀ (m : FlagMap) (k k' v : String), k' ≠ k →
      lookupFlag (setFlag m k' v) k = lookupFlag m k
  | [], k, k', v, h => by simp [setFlag, lookupFlag, h]
  | (k'', v'') :: m, k, k', v, h => by
    by_cases h2 : k'' = k'
    · simp only [setFlag, if_pos h2, lookupFlag, if_neg h, if_neg (h2 ▸ h)]
    · simp only [setFlag, if_neg h2, lookupFlag]
      by_cases h3 : k'' = k
      · rw [if_pos h3, if_pos h3]
      · rw [if_neg h3, if_neg h3]
        exact lookupFlag_setFlag_other m k k' v h

/-- What the flag-map loop leaves under key `k`: the last assignment among
the tokens, else whatever the starting map held. -/
theorem flagsLoop_lookup (k : String) : ∀ (ts : List String) (m m' : FlagMap),
    flagsLoop ts m = .ok m' →
    lookupFlag m' k =
      (match lastOccurrenceValue ts k with
       | some v => some v
       | none => lookupFlag m k)
  | [], m, m', h => by
    cases h
    simp [lastOccurrenceValue]
  | p :: ps, m, m', h => by
    unfold flagsLoop at h
    rcases hc : goCut p with _ | ⟨k', v⟩ <;> rw [hc] at h
    · cases h
    · have ih := flagsLoop_lookup k ps (setFlag m k' (goTrim v quoteCutset)) m' h
      rw [ih]
      have heq : lastOccurrenceValue (p :: ps) k =
          (match lastOccurrenceValue ps k with
           | some v => some v
           | none =>
             match goCut p with
             | some (k', v) => if k' = k then some (goTrim v quoteCutset) else none
             | none => none) := rfl
      rw [heq]
      rcases hl : lastOccurrenceValue ps k with _ | w
      · simp only [hc]
        by_cases hk : k' = k
        · rw [if_pos hk, hk, lookupFlag_setFlag_self]
        · rw [if_neg hk, lookupFlag_setFlag_other m k k' _ hk]
      · rfl

/-! ## C1: malformed directives are silently dropped, not surfaced -/

/-- C1 (code bug): `ParseFromComment` does report the malformed `-type`
token, but the `ast.Inspect` closure inside `ParseFileDirectives` discards
the error (`return false`) and the function's `error` result stays `nil`.
With the malformed directive alone, the run aborts with the unrelated
message `no genum directives found`; with a valid directive alongside, the
malformed one is dropped and the run succeeds. The claim (and the spec's
error taxonomy) says the malformed-directive error is surfaced verbatim and
aborts the run. -/
theorem malformedDirectiveErrorSwallowed :
    ParseFromComment "//go:generate genum -type" "demo.go" =
      .error "invalid argument: -type" ∧
    ParseFileDirectives envMalformed = [] ∧
    Parse envMalformed = .error "no genum directives found" ∧
    Parse envMalformedThenValid =
      .ok [{ packageName := "demo", source := "demo.go", output := "demo_genum.go",
             enums := [{ typeName := "Color", baseType := "string",
                         trimPrefix := "Color", caseMode := "sensitive",
                         values := [{ name := "Red", value := "red" }] }],
             needStringsPackage := false }] :=
  ⟨rfl, rfl, rfl, rfl⟩

/-! ## C3: case-mode validation -/

/-- C3 counterexample: an explicit `-case=` token does not succeed with the
sensitive default; it fails the `IsValid` check with the invalid-mode error
(whose named mode is the empty string). -/
theorem emptyCaseTokenFails :
    ParseFromComment "//go:generate genum -type=Status -case=" "types.go" =
      .error "invalid argument -case: " :=
  rfl

/-! ## C7: default output path and trim prefix -/

/-- C7 counterexample: the default output path replaces the FIRST occurrence
of `.go` in the source file name, not the trailing extension: on
`my.golang.go` the result is `my_genum.golang.go`, not the
extension-replaced `my.golang_genum.go` the claim describes. -/
theorem outputReplacesFirstOccurrence :
    ParseFromComment "//go:generate genum -type=Color" "my.golang.go" =
      .ok (some { typeName := "Color", outputFile := "my_genum.golang.go",
                  trimPrefix := "Color", caseMode := "sensitive" }) ∧
    "my_genum.golang.go" ≠ "my.golang_genum.go" :=
  ⟨rfl, by decide⟩

/-- C7 (amended): with no `-output`, the output path is
`strings.Replace(sourceFile, ".go", "_genum.go", 1)` — the first occurrence
of `.go` replaced — and with no `-trimprefix` the trim prefix equals the
target type name. On `color.go` this gives `color_genum.go` (the `color`
stem preserved); on a name whose first `.go` is not the extension the
replacement lands mid-name. -/
theorem outputDerivationFirstDotGo :
    (∀ sourceFile : String,
      ParseFromComment "//go:generate genum -type=Color" sourceFile =
        .ok (some { typeName := "Color",
                    outputFile := goReplaceOnce sourceFile ".go" "_genum.go",
                    trimPrefix := "Color", caseMode := "sensitive" })) ∧
    goReplaceOnce "color.go" ".go" "_genum.go" = "color_genum.go" ∧
    goReplaceOnce "my.golang.go" ".go" "_genum.go" = "my_genum.golang.go" :=
  ⟨fun _ => rfl, rfl, rfl⟩

/-- C3 (amended): with a non-empty `-type`, the case mode defaults to
`sensitive` only when the `-case` key is ABSENT from the flag map; whenever
the key is present its value must be one of the four recognized modes, so an
explicit empty value (as `-case=` produces) fails with the invalid-mode
error naming that (empty) mode, and a present valid value is kept. -/
theorem caseModeValidation (comment sourceFile ty : String) (flags : FlagMap)
    (hdir : IsGenumDirective (goTrimSpace comment) = true)
    (hflags : ParseFlags (goTrimSpace comment) = .ok flags)
    (hty : lookupFlag flags "-type" = some ty) (htyne : ty ≠ "") :
    (lookupFlag flags "-case" = none →
      ∃ d, ParseFromComment comment sourceFile = .ok (some d) ∧
        d.caseMode = caseSensitive) ∧
    (∀ c, lookupFlag flags "-case" = some c → caseIsValid c = false →
      ParseFromComment comment sourceFile =
        .error ("invalid argument -case: " ++ c)) ∧
    (∀ c, lookupFlag flags "-case" = some c → caseIsValid c = true →
      ∃ d, ParseFromComment comment sourceFile = .ok (some d) ∧ d.caseMode = c) := by
  have hbody : ParseFromComment comment sourceFile =
      (let d : Directive :=
        { typeName := (lookupFlag flags "-type").getD ""
          outputFile := (lookupFlag flags "-output").getD ""
          trimPrefix := (lookupFlag flags "-trimprefix").getD ""
          caseMode := (lookupFlag flags "-case").getD caseSensitive }
      if d.typeName = "" then .error "-type=<type> is required"
      else
        let d := if d.outputFile = "" then
            { d with outputFile := goReplaceOnce sourceFile ".go" "_genum.go" } else d
        let d := if d.trimPrefix = "" then { d with trimPrefix := d.typeName } else d
        if ¬ caseIsValid d.caseMode then .error ("invalid argument -case: " ++ d.caseMode)
        else .ok (some d)) := by
    unfold ParseFromComment
    simp only [hdir, hflags, not_true_eq_false, Bool.false_eq_true, if_false]
  rw [hbody, hty]
  simp only [Option.getD_some]
  rw [if_neg htyne]
  refine ⟨?_, ?_, ?_⟩
  · intro hcase
    rw [hcase]
    simp only [Option.getD_none]
    split <;> split <;> simp [caseIsValid]
  · intro c hcase hbad
    rw [hcase]
    simp only [Option.getD_some]
    split <;> split <;> simp [hbad]
  · intro c hcase hgood
    rw [hcase]
    simp only [Option.getD_some]
    split <;> split <;> simp [hgood]

/-- C3 witness: the theorem applied to `-case=` on `-type=Status`. Its
second conjunct, at the present-but-invalid empty mode, yields the
invalid-mode failure. -/
theorem caseModeValidation_witness :
    (lookupFlag [("-type", "Status"), ("-case", "")] "-case" = none →
      ∃ d, ParseFromComment "//go:generate genum -type=Status -case=" "types.go" =
          .ok (some d) ∧ d.caseMode = caseSensitive) ∧
    (∀ c, lookupFlag [("-type", "Status"), ("-case", "")] "-case" = some c →
      caseIsValid c = false →
      ParseFromComment "//go:generate genum -type=Status -case=" "types.go" =
        .error ("invalid argument -case: " ++ c)) ∧
    (∀ c, lookupFlag [("-type", "Status"), ("-case", "")] "-case" = some c →
      caseIsValid c = true →
      ∃ d, ParseFromComment "//go:generate genum -type=Status -case=" "types.go" =
          .ok (some d) ∧ d.caseMode = c) :=
  caseModeValidation "//go:generate genum -type=Status -case=" "types.go" "Status"
    [("-type", "Status"), ("-case", "")] rfl rfl rfl (by decide)

/-! ## C6: quote stripping strips every edge quote, not one pair -/

/-- C6 counterexample: `strings.Trim` removes ALL leading and trailing
quote characters. A `-type` value wearing two pairs of single quotes loses
both pairs (the claim says only one pair is removed, keeping `'Status'`),
and mismatched edge quotes are removed too (the claim says they are
kept). -/
theorem extraQuotesAlsoStripped :
    ParseFlags dirDoubleQuoted = .ok [("-type", "Status")] ∧
    ("Status" : String) ≠ sqStr ++ "Status" ++ sqStr ∧
    ParseFlags dirMismatchedQuotes = .ok [("-type", "Status")] :=
  ⟨rfl, by decide, rfl⟩

/-- C6 (amended): a flag value is trimmed of EVERY leading and trailing
quote character (single or double, in any combination), leaving a value that
neither starts nor ends with a quote; in particular `-type='Status'`,
`-type="Status"` and `-type=Status` all yield `Status`. -/
theorem quoteStrippingAllEdges :
    (∀ v : String, ∃ a b : List Char,
      v.data = a ++ (goTrim v quoteCutset).data ++ b ∧
      (∀ c ∈ a, quoteCutset.contains c = true) ∧
      (∀ c ∈ b, quoteCutset.contains c = true) ∧
      (∀ c, (goTrim v quoteCutset).data.head? = some c →
        quoteCutset.contains c = false) ∧
      (∀ c, (goTrim v quoteCutset).data.getLast? = some c →
        quoteCutset.contains c = false)) ∧
    ParseFlags (genumMarker ++ "-type=" ++ sqStr ++ "Status" ++ sqStr) =
      .ok [("-type", "Status")] ∧
    ParseFlags (genumMarker ++ "-type=\"Status\"") = .ok [("-type", "Status")] ∧
    ParseFlags (genumMarker ++ "-type=Status") = .ok [("-type", "Status")] :=
  ⟨fun v => goTrim_spec v quoteCutset, rfl, rfl, rfl⟩

/-! ## C10: a repeated key keeps the last occurrence -/

/-- C10: the flag loop stores each `key=value` token by overwriting the
map entry, so a key repeated in one directive keeps only its last
occurrence's value, without error; concretely `-type=A -type=B` parses to
type name `B`. -/
theorem duplicateKeyLastWins :
    (∀ (ts : List String) (m m' : FlagMap) (k : String), flagsLoop ts m = .ok m' →
      lookupFlag m' k =
        (match lastOccurrenceValue ts k with
         | some v => some v
         | none => lookupFlag m k)) ∧
    ParseFlags "//go:generate genum -type=A -type=B" = .ok [("-type", "B")] ∧
    ParseFromComment "//go:generate genum -type=A -type=B" "flags.go" =
      .ok (some { typeName := "B", outputFile := "flags_genum.go",
                  trimPrefix := "B", caseMode := "sensitive" }) :=
  ⟨fun ts m m' k h => flagsLoop_lookup k ts m m' h, rfl, rfl⟩

/-! ## C4: the value-extraction fallback chain -/

/-- C4 counterexample: a matched constant whose initializer is a conversion
call with no resolved constant value extracts to the EMPTY string — neither
the call's first argument (`"x"`, which the claimed recursive extraction
would give) nor the constant's declared name (`"Foo"`, which the claimed
failure fallback would give). -/
theorem callInitializerYieldsEmpty :
    ProcessConstGroupWithTypes pkgColors declCallInit "Color" =
      [{ name := "Foo", value := "" }] ∧
    ("" : String) ≠ "x" ∧ ("" : String) ≠ "Foo" :=
  ⟨rfl, by decide, by decide⟩

/-- C4 (amended): extraction prefers the resolved constant value (rendered
text, double quotes trimmed) regardless of the initializer's shape;
otherwise a literal gives its trimmed text and an identifier its name, and
any other expression — a conversion call included — gives the empty string;
the declared name is used only when the constant has no initializer at its
index. -/
theorem valueExtractionChain (s fn : String) (args : List Expr) (e : Expr)
    (tty : GoType) (cn : ConstName) (ie : InitExpr)
    (hdef : cn.defType = some tty) (hexp : IsExported cn.name = true) :
    extractConstantValue { expr := e, resolvedValue := some s } = goTrim s ['"'] ∧
    extractConstantValue { expr := .basicLit s, resolvedValue := none } = goTrim s ['"'] ∧
    extractConstantValue { expr := .ident fn, resolvedValue := none } = fn ∧
    extractConstantValue { expr := .call fn args, resolvedValue := none } = "" ∧
    processNames tty { names := [cn], typeAnnot := none, values := [ie] } 0 [cn] =
      [{ name := cn.name, value := extractConstantValue ie }] ∧
    processNames tty { names := [cn], typeAnnot := none, values := [] } 0 [cn] =
      [{ name := cn.name, value := cn.name }] := by
  refine ⟨rfl, rfl, rfl, rfl, ?_, ?_⟩ <;>
    simp [processNames, processName, hdef, hexp]

/-- C4 witness: the chain at `Color`, its constant `Foo`, and a string
literal initializer. -/
theorem valueExtractionChain_witness :
    extractConstantValue { expr := Expr.otherExpr, resolvedValue := some "\"red\"" } =
      goTrim "\"red\"" ['"'] ∧
    extractConstantValue { expr := .basicLit "\"red\"", resolvedValue := none } =
      goTrim "\"red\"" ['"'] ∧
    extractConstantValue { expr := .ident "Color", resolvedValue := none } = "Color" ∧
    extractConstantValue { expr := .call "Color" [], resolvedValue := none } = "" ∧
    processNames tyColor
        { names := [{ name := "Foo", defType := some tyColor }], typeAnnot := none,
          values := [{ expr := .basicLit "\"x\"", resolvedValue := none }] } 0
        [{ name := "Foo", defType := some tyColor }] =
      [{ name := "Foo",
         value := extractConstantValue { expr := .basicLit "\"x\"", resolvedValue := none } }] ∧
    processNames tyColor
        { names := [{ name := "Foo", defType := some tyColor }], typeAnnot := none,
          values := [] } 0 [{ name := "Foo", defType := some tyColor }] =
      [{ name := "Foo", value := "Foo" }] :=
  valueExtractionChain "\"red\"" "Color" [] Expr.otherExpr tyColor
    { name := "Foo", defType := some tyColor }
    { expr := .basicLit "\"x\"", resolvedValue := none } rfl rfl

/-! ## C5: matching is by resolved type identity -/

/-- C5 counterexample: a constant declared through a Go ALIAS of the target
type (`type ColorAlias = Color`) resolves to the identical type and IS
included, contrary to the claim that an alias does not match; a
differently-named defined type with the same underlying representation is
excluded, and so is an unexported constant even of the exact type. -/
theorem aliasConstantIncluded :
    ProcessConstGroupWithTypes pkgWithAlias declAliasConst "Color" =
      [{ name := "Draft", value := "draft" }] ∧
    ProcessConstGroupWithTypes pkgWithAlias declHueConst "Color" = [] ∧
    ProcessConstGroupWithTypes pkgWithAlias declUnexported "Color" = [] :=
  ⟨rfl, rfl, rfl⟩

/-- C5 (amended): a constant is included exactly when its resolved declared
type is identical to the target type's resolved type AND its name is
exported. A differently-named defined type with the same underlying
representation is not identical and never matches; an alias declaration
(`type A = T`) denotes the identical resolved type, so constants declared
through it do match. -/
theorem inclusionIffResolvedTypeIdentity (tty : GoType) (vs : ValueSpec) (i : Nat)
    (cn : ConstName) :
    (processName tty vs i cn ≠ [] ↔
      (cn.defType = some tty ∧ IsExported cn.name = true)) ∧
    ProcessConstGroupWithTypes pkgWithAlias declAliasConst "Color" =
      [{ name := "Draft", value := "draft" }] ∧
    ProcessConstGroupWithTypes pkgWithAlias declHueConst "Color" = [] := by
  refine ⟨?_, rfl, rfl⟩
  unfold processName
  rcases cn.defType with _ | ty
  · simp
  · by_cases hty : ty = tty
    · subst hty
      by_cases hexp : IsExported cn.name <;> simp [hexp]
    · simp [hty]

/-! ## C9: the zero-match failure message -/

/-- C9 counterexample: when `Status` resolves but binds no exported
constants, `Parse` (and so the run) fails with the WRAPPED message
`failed to parse enum Status: no values found for enum Status`, which is
not the exact message the claim states. -/
theorem zeroMatchErrorWrapped :
    Parse envNoValues =
      .error "failed to parse enum Status: no values found for enum Status" ∧
    ("failed to parse enum Status: no values found for enum Status" : String) ≠
      "no values found for enum Status" :=
  ⟨rfl, by decide⟩

/-- C9 (amended): with the target type resolved to a non-empty base type and
zero matching exported constants, `ParseSingleEnum` fails with exactly
`no values found for enum <type>`, and `Parse`'s directive loop aborts the
run with that message wrapped as
`failed to parse enum <type>: <inner message>`. -/
theorem noValuesErrorMessage :
    (∀ (pkg : Package) (d : Directive) (bt : String),
      ParseBaseType pkg d.typeName = some bt → bt ≠ "" →
      ParseConstants pkg d.typeName = [] →
      ParseSingleEnum pkg d = .error ("no values found for enum " ++ d.typeName)) ∧
    (∀ (env : Environment) (d : Directive) (rest : List Directive)
      (units : List File) (msg : String),
      ParseSingleEnum env.pkg d = .error msg →
      ParseLoop env (d :: rest) units =
        .error ("failed to parse enum " ++ d.typeName ++ ": " ++ msg)) := by
  constructor
  · intro pkg d bt h1 h2 h3
    unfold ParseSingleEnum
    rw [h1]
    simp only [if_neg h2, h3]
    rfl
  · intro env d rest units msg h
    unfold ParseLoop
    rw [h]

/-- C9 witness: both parts at the concrete `Status` package with only an
unexported constant. -/
theorem noValuesErrorMessage_witness :
    ParseSingleEnum pkgNoValues
        { typeName := "Status", outputFile := "s.go", trimPrefix := "Status",
          caseMode := "sensitive" } =
      .error ("no values found for enum " ++ "Status") ∧
    ParseLoop envNoValues
        [{ typeName := "Status", outputFile := "s.go", trimPrefix := "Status",
           caseMode := "sensitive" }] [] =
      .error ("failed to parse enum " ++ "Status" ++ ": " ++
        "no values found for enum Status") :=
  ⟨noValuesErrorMessage.1 pkgNoValues
      { typeName := "Status", outputFile := "s.go", trimPrefix := "Status",
        caseMode := "sensitive" } "string" rfl (by decide) rfl,
   noValuesErrorMessage.2 envNoValues
      { typeName := "Status", outputFile := "s.go", trimPrefix := "Status",
        caseMode := "sensitive" } [] [] "no values found for enum Status" rfl⟩


/-! ## C2: the strings-package flag is computed from the first directive only -/

/-- C2 counterexample: over two directives aggregated into one unit, the
flag stays `false` although the unit contains a later enum that requires
case-insensitive string support (`-case=ignore` on a string-backed enum):
the flag is computed only when the unit is created, from the first
directive. -/
theorem laterFoldingEnumDoesNotSetFlag :
    Parse envTwoDirOneOutput = .ok [fileTwoDir] ∧
    fileTwoDir.needStringsPackage = false ∧
    enumSizeIgnore ∈ fileTwoDir.enums ∧
    enumSizeIgnore.caseMode ≠ caseSensitive ∧
    enumSizeIgnore.baseType = "string" :=
  ⟨rfl, rfl, by simp [fileTwoDir], by decide, rfl⟩

/-- C2 (amended): for every unit `Parse` produces, the strings-package flag
equals the condition of the FIRST directive with that unit's output path
(case mode not sensitive and string base type); directives appended later
never modify the flag — in particular they never reset it, but they also
never set it. -/
theorem needStringsFromFirstDirective (env : Environment) (files : List File) (f : File)
    (h : Parse env = .ok files) (hf : f ∈ files) :
    f.needStringsPackage = firstNeedsStrings env (ParseFileDirectives env) f.output := by
  unfold Parse at h
  simp only [] at h
  by_cases hemp : (ParseFileDirectives env).isEmpty
  · rw [if_pos hemp] at h
    exact absurd h (by simp)
  · rw [if_neg hemp] at h
    rcases parseLoop_flag env (ParseFileDirectives env) [] files h f hf with
      ⟨u, hu, _⟩ | ⟨_, d, hfind, hflag⟩
    · exact absurd hu (List.not_mem_nil u)
    · rw [hflag]
      unfold firstNeedsStrings
      rw [hfind]

/-- C2 witness: the theorem at the two-directive environment and its
produced unit. -/
theorem needStringsFromFirstDirective_witness :
    fileTwoDir.needStringsPackage =
      firstNeedsStrings envTwoDirOneOutput (ParseFileDirectives envTwoDirOneOutput)
        fileTwoDir.output :=
  needStringsFromFirstDirective envTwoDirOneOutput [fileTwoDir] fileTwoDir rfl
    (List.mem_singleton_self fileTwoDir)

/-! ## C8: aggregation by output path -/

/-- C8: units produced by `Parse` have pairwise-distinct output paths (one
unit per path); every unit carries the compilation unit's package name and
the source file's name, and its enums are exactly the enums of the
directives with its output path, in the order the directives were
encountered (the first directive creates the unit, later ones only append);
and every directive's output path has its unit. -/
theorem parseAggregation (env : Environment) (files : List File)
    (h : Parse env = .ok files) :
    List.Pairwise (fun f g => f.output ≠ g.output) files ∧
    (∀ f ∈ files,
      f.packageName = env.PackageName ∧ f.source = env.sourceFileName ∧
      f.enums = ((ParseFileDirectives env).filter
        (fun d => d.outputFile == f.output)).filterMap (enumOf env)) ∧
    (∀ d ∈ ParseFileDirectives env, ∃ f ∈ files, f.output = d.outputFile) := by
  unfold Parse at h
  simp only [] at h
  by_cases hemp : (ParseFileDirectives env).isEmpty
  · rw [if_pos hemp] at h
    exact absurd h (by simp)
  · rw [if_neg hemp] at h
    refine ⟨?_, ?_, ?_⟩
    · have hnd := parseLoop_nodup env _ [] files h (by simp)
      exact List.pairwise_map.mp hnd
    · intro f hf
      rcases parseLoop_origin env _ [] files h f hf with ⟨u, hu, _⟩ | ⟨e1, e2, _⟩
      · exact absurd hu (List.not_mem_nil u)
      · refine ⟨e1, e2, ?_⟩
        have henums := parseLoop_enums env _ [] files h (by simp) f hf
        simpa using henums
    · exact parseLoop_cover env _ [] files h

/-- C8 witness: the theorem at three directives, two sharing `o.go` and one
with `p.go`. -/
theorem parseAggregation_witness :
    List.Pairwise (fun f g => f.output ≠ g.output) [fileOGo, filePGo] ∧
    (∀ f ∈ [fileOGo, filePGo],
      f.packageName = envThreeDirectives.PackageName ∧
      f.source = envThreeDirectives.sourceFileName ∧
      f.enums = ((ParseFileDirectives envThreeDirectives).filter
        (fun d => d.outputFile == f.output)).filterMap (enumOf envThreeDirectives)) ∧
    (∀ d ∈ ParseFileDirectives envThreeDirectives,
      ∃ f ∈ [fileOGo, filePGo], f.output = d.outputFile) :=
  parseAggregation envThreeDirectives [fileOGo, filePGo] rfl

end Genum
